import Mathlib

/-!
Verification development for the web-environments repository: a shallow
embedding of the replay/matching engine, trajectory compiler, event
recorder and network archiver described in spec.md (their Python sources
under src/browser, src/environments and src/scripts are not part of the
shipped tree, so those components are modelled from the spec), together
with embeddings of the fixture backend (test-web-app/backend/server.js)
and the frontend route helpers (frontend/src/utils/routes.js), which are
shipped and are embedded directly from their JavaScript source.
-/

namespace WebEnv

/-! ## Replay engine model (spec §4.6)

Modelled from the spec: the Replay Engine source (src/environments/replay.py
per the README) is not under src/.  A matching key is
(method, normalized URL, body hash for non-GET/HEAD); the hash is modelled
as the request body itself (an injective stand-in for the digest). -/

/-- Modelled from the spec: one archived request/response correlation held
by a finalized bundle, as consumed by the replay matcher. -/
structure NetworkExchange where
  method : String
  url : String
  requestBody : String
  responseBody : String
  deriving DecidableEq, Repr

/-- Modelled from the spec: a live request issued inside the replay context. -/
structure LiveRequest where
  method : String
  url : String
  body : String
  deriving DecidableEq, Repr

/-- Modelled from the spec: the matching key
(method, normalized URL, body hash for non-GET/HEAD methods). -/
structure ReqKey where
  method : String
  url : String
  bodyHash : Option String
  deriving DecidableEq, Repr

/-- Modelled from the spec: key of an archived exchange. -/
def exchangeKey (ex : NetworkExchange) : ReqKey :=
  ⟨ex.method, ex.url,
    if ex.method = "GET" ∨ ex.method = "HEAD" then none else some ex.requestBody⟩

/-- Modelled from the spec: key of a live request. -/
def requestKey (r : LiveRequest) : ReqKey :=
  ⟨r.method, r.url,
    if r.method = "GET" ∨ r.method = "HEAD" then none else some r.body⟩

/-- The FIFO queue the engine keeps for key `k`: the archived exchanges
recorded under `k`, in original chronological (recording) order, restricted
to the not-yet-served remainder. -/
def queueFor (remaining : List NetworkExchange) (k : ReqKey) : List NetworkExchange :=
  remaining.filter (fun ex => exchangeKey ex = k)

/-- Modelled from the spec: outcome of routing one live request. -/
inductive ReplayResult where
  | served (body : String)
  | failed
  | fallback (body : String)
  deriving DecidableEq, Repr

/-- Modelled from the spec: serve one live request.  Pop and serve the head
of the matching key's queue; on an empty queue fail the request when
fallback is disabled, else forward to the live network (`live`) and tag the
result as a fallback.  Returns the result and the updated remainder. -/
def serveOne (fallbackEnabled : Bool) (live : LiveRequest → String)
    (remaining : List NetworkExchange) (r : LiveRequest) :
    ReplayResult × List NetworkExchange :=
  match remaining.find? (fun ex => exchangeKey ex = requestKey r) with
  | some ex => (.served ex.responseBody,
      remaining.eraseP (fun ex => exchangeKey ex = requestKey r))
  | none =>
      if fallbackEnabled then (.fallback (live r), remaining)
      else (.failed, remaining)

/-- Modelled from the spec: route a whole sequence of live requests against
the remaining archive, threading the per-key queues. -/
def replayRun (fallbackEnabled : Bool) (live : LiveRequest → String)
    (remaining : List NetworkExchange) : List LiveRequest → List ReplayResult
  | [] => []
  | r :: rs =>
      let step := serveOne fallbackEnabled live remaining r
      step.1 :: replayRun fallbackEnabled live step.2 rs

/-! ## Trajectory compiler model (spec §4.5)

Modelled from the spec: the tool-call formatter
(src/scripts/postprocessing/_1_tool_calls_format.py per the README) is not
under src/.  Consecutive keydown/input Steps targeting the same element —
a run broken by any Step of another kind or another target, in particular
by a click or navigate — collapse into one `type` ToolCall carrying the
final field value and the timestamp of the last contributing Step; all
other Steps map one-to-one to ToolCalls. -/

/-- Step kinds of the spec data model (§3). -/
inductive StepKind where
  | navigate | click | keydown | input | scroll | contextmenu
  deriving DecidableEq, Repr

/-- Modelled from the spec: one UI-level event of the Step log (§3).
`value` is the field value after the event (for keydown/input), the url
for navigate. -/
structure Step where
  sequence : Nat
  timestamp : Nat
  kind : StepKind
  target : String
  value : String
  deriving DecidableEq, Repr

/-- Modelled from the spec: one semantic action of a Trajectory (§3). -/
structure ToolCall where
  type : String
  target : String
  value : String
  timestamp : Nat
  deriving DecidableEq, Repr

/-- Whether a Step kind participates in a typing run. -/
def isTyping (k : StepKind) : Bool :=
  match k with
  | .keydown | .input => true
  | _ => false

/-- One-to-one translation of a non-typing Step. -/
def toolCallOfStep (s : Step) : ToolCall :=
  match s.kind with
  | .navigate => ⟨"navigate", s.target, s.value, s.timestamp⟩
  | .click => ⟨"click", s.target, s.value, s.timestamp⟩
  | .scroll => ⟨"scroll", s.target, s.value, s.timestamp⟩
  | .contextmenu => ⟨"contextmenu", s.target, s.value, s.timestamp⟩
  | .keydown => ⟨"type", s.target, s.value, s.timestamp⟩
  | .input => ⟨"type", s.target, s.value, s.timestamp⟩

/-- The `type` ToolCall carrying a contributing Step's value and timestamp. -/
def typeCall (s : Step) : ToolCall := ⟨"type", s.target, s.value, s.timestamp⟩

/-- Modelled from the spec: compiler core.  `pending` is the `type`
ToolCall accumulated for the typing run in progress; each further typing
Step on the same target overwrites it with the newer value/timestamp, any
other Step flushes it. -/
def compileAux : Option ToolCall → List Step → List ToolCall
  | pending, [] => pending.toList
  | pending, s :: rest =>
      if isTyping s.kind then
        match pending with
        | some tc =>
            if tc.target = s.target then compileAux (some (typeCall s)) rest
            else tc :: compileAux (some (typeCall s)) rest
        | none => compileAux (some (typeCall s)) rest
      else
        pending.toList ++ (toolCallOfStep s :: compileAux none rest)

/-- Modelled from the spec: the Trajectory Compiler's pure transformation
from a finalized bundle's Step log to its ToolCall sequence. -/
def compile (steps : List Step) : List ToolCall := compileAux none steps

/-! ## Event recorder model (spec §4.1, §3 Step)

Modelled from the spec: the Event Recorder source (src/browser/recorder.py
per the README) is not under src/.  For each driver event the recorder
assigns the next sequence number and the event's wall-clock timestamp and
appends the Step to the session's step log. -/

/-- Modelled from the spec: one driver-emitted UI event, carrying the
wall-clock timestamp at which the recorder handles it. -/
structure RecordedEvent where
  timestamp : Nat
  kind : StepKind
  target : String
  value : String
  deriving DecidableEq, Repr

/-- Modelled from the spec: append one Step, assigning the next sequence
number and the event's timestamp. -/
def appendStep (steps : List Step) (e : RecordedEvent) : List Step :=
  steps ++ [⟨steps.length, e.timestamp, e.kind, e.target, e.value⟩]

/-- Modelled from the spec: record a whole event stream into the step log. -/
def recordEvents (steps : List Step) (events : List RecordedEvent) : List Step :=
  events.foldl appendStep steps

/-- The Step ordering invariant of spec §3/§8: in log order, sequence
numbers strictly increase and timestamps never decrease. -/
def StepOrdered (l : List Step) : Prop :=
  l.Pairwise (fun a b => a.sequence < b.sequence ∧ a.timestamp ≤ b.timestamp)

instance : DecidablePred StepOrdered := fun l =>
  List.instDecidablePairwise l

/-! ## Network archiver model (spec §4.2, §3 NetworkExchange)

Modelled from the spec: the Network Archiver source (src/browser/capture.py
per the README) is not under src/.  On request start the archiver records
the request half under the driver-assigned exchange id; on response or
failure it fills in or flags the same exchange; at finalize, exchanges that
never received a response are explicitly flagged incomplete, never
discarded. -/

/-- Modelled from the spec: the response half of an archived exchange. -/
structure RespData where
  status : Nat
  body : String
  deriving DecidableEq, Repr

/-- Modelled from the spec: one archiver record, correlated by the
driver-assigned exchange id. -/
structure ArchivedExchange where
  id : Nat
  method : String
  url : String
  requestBody : String
  response : Option RespData
  incomplete : Bool
  deriving DecidableEq, Repr

/-- Modelled from the spec: the driver-emitted network events. -/
inductive ArchEvent where
  | requestStart (id : Nat) (method url requestBody : String)
  | responseDone (id : Nat) (resp : RespData)
  | requestFailed (id : Nat)
  deriving DecidableEq, Repr

/-- Modelled from the spec: apply one network event to the archive.
Correlation is strictly by exchange id. -/
def applyArchEvent (archive : List ArchivedExchange) : ArchEvent → List ArchivedExchange
  | .requestStart i m u b => archive ++ [⟨i, m, u, b, none, false⟩]
  | .responseDone i resp =>
      archive.map (fun ex => if ex.id = i then { ex with response := some resp } else ex)
  | .requestFailed i =>
      archive.map (fun ex => if ex.id = i then { ex with incomplete := true } else ex)

/-- Modelled from the spec: the archive accumulated over a capture session. -/
def runArchiver (events : List ArchEvent) : List ArchivedExchange :=
  events.foldl applyArchEvent []

/-- Modelled from the spec: at finalize, flag every exchange still awaiting
its response as incomplete rather than dropping it. -/
def finalizeArchive (archive : List ArchivedExchange) : List ArchivedExchange :=
  archive.map (fun ex => if ex.response.isNone then { ex with incomplete := true } else ex)

/-- The ids for which a request start was ever observed. -/
def startedIds (events : List ArchEvent) : List Nat :=
  events.filterMap (fun e =>
    match e with
    | .requestStart i _ _ _ => some i
    | _ => none)

/-! ## Fixture backend embedding (src/src/test-web-app/backend/server.js)

The record-keeping fixture backend used only to produce test traffic.
JS strings are embedded as Lean strings; `toLowerCase` character-wise,
`String.prototype.includes` as a character-list substring test.  Express
delivers an absent query/body field as `none`/`""`; JS truthiness makes
the empty string falsy in `if (q)` and `!email` checks.  The mutable
module-level `hotels`/`sessions`/`users` collections are embedded as
explicit state threaded through the handlers; the synchronous JSON file
writes (`saveSessions` etc.) mirror that state and carry no extra
information, so they are not modelled separately. -/

/-- Character-wise embedding of JS `String.prototype.toLowerCase`. -/
def jsToLower (s : String) : String := ⟨s.data.map Char.toLower⟩

/-- Substring test on character lists, the meaning of JS
`String.prototype.includes`. -/
def charsInclude (needle : List Char) : List Char → Bool
  | [] => needle.isEmpty
  | c :: t => needle.isPrefixOf (c :: t) || charsInclude needle t

/-- Embedding of JS `hay.includes(needle)`. -/
def jsIncludes (hay needle : String) : Bool := charsInclude needle.data hay.data

/-- One hotel record, with the fields the `/hotels` handlers read. -/
structure Hotel where
  id : String
  name : String
  city : String
  deriving DecidableEq, Repr

/-- Embedding of the `GET /hotels` handler (server.js lines 175-187): copy
the stored list (`hotels.slice()`), filter by `q` — lowercased substring of
lowercased name or city — when `q` is truthy, then by `city` — lowercased
equality — when `city` is truthy.  A JS-falsy (absent or empty) parameter
skips its filter. -/
def getHotels (hotels : List Hotel) (q city : Option String) : List Hotel :=
  let result := hotels
  let result :=
    match q with
    | some qs =>
        if qs ≠ "" then
          result.filter (fun h =>
            jsIncludes (jsToLower h.name) (jsToLower qs) ||
            jsIncludes (jsToLower h.city) (jsToLower qs))
        else result
    | none => result
  match city with
  | some cs =>
      if cs ≠ "" then result.filter (fun h => jsToLower h.city = jsToLower cs)
      else result
  | none => result

/-- The claim's reading of `GET /hotels`, for comparison: each filter
applies whenever its parameter is given at all. -/
def getHotelsClaimed (hotels : List Hotel) (q city : Option String) : List Hotel :=
  hotels.filter (fun h =>
    (match q with
     | some qs =>
         jsIncludes (jsToLower h.name) (jsToLower qs) ||
         jsIncludes (jsToLower h.city) (jsToLower qs)
     | none => true) &&
    (match city with
     | some cs => jsToLower h.city = jsToLower cs
     | none => true))

/-- One registered user (the `users` array). -/
structure User where
  id : String
  email : String
  password : String
  createdAt : String
  deriving DecidableEq, Repr

/-- The value stored under a session token. -/
structure SessionData where
  email : String
  createdAt : String
  deriving DecidableEq, Repr

/-- The `sessions` object, token → session record, embedded as an
association list in JS object insertion order. -/
abbrev Sessions := List (String × SessionData)

/-- JS object property assignment `sessions[token] = value`: overwrite in
place when the key exists, else append. -/
def setSession (m : Sessions) (t : String) (v : SessionData) : Sessions :=
  if m.any (fun p => p.1 = t) then
    m.map (fun p => if p.1 = t then (t, v) else p)
  else m ++ [(t, v)]

/-- JS `delete sessions[token]`. -/
def deleteSession (m : Sessions) (t : String) : Sessions :=
  m.filter (fun p => p.1 ≠ t)

/-- Embedding of `removeSessionsByEmail` (server.js lines 69-78): rebuild
the object keeping the entries whose email differs. -/
def removeSessionsByEmail (m : Sessions) (email : String) : Sessions :=
  m.filter (fun p => p.2.email ≠ email)

/-- Session lookup `sessions[token]`. -/
def getSession (m : Sessions) (t : String) : Option SessionData :=
  (m.find? (fun p => p.1 = t)).map Prod.snd

/-- The fixture backend's server-side auth state. -/
structure ServerState where
  users : List User
  sessions : Sessions
  deriving DecidableEq, Repr

/-- One auth request together with the environment-supplied values (the
`crypto.randomUUID()` results and the current time). -/
inductive AuthOp where
  | register (email password id createdAt : String)
  | login (email password token createdAt : String)
  | logout (token : Option String)
  deriving DecidableEq, Repr

/-- Embedding of the `/auth/register`, `/auth/login` and `/auth/logout`
handlers (server.js lines 121-173).  Missing/empty fields are falsy; the
400/401/409 failure paths return without touching the state; logout goes
through `ensureAuthenticated`, which rejects a falsy or unknown token. -/
def authStep (st : ServerState) : AuthOp → ServerState
  | .register email password id createdAt =>
      if email = "" ∨ password = "" then st
      else if (st.users.find? (fun u => u.email = email)).isSome then st
      else
        { users := st.users ++ [⟨id, email, password, createdAt⟩],
          sessions := removeSessionsByEmail st.sessions email }
  | .login email password token createdAt =>
      if email = "" ∨ password = "" then st
      else
        match st.users.find? (fun u => u.email = email ∧ u.password = password) with
        | none => st
        | some _ =>
            { st with sessions :=
                (setSession (removeSessionsByEmail st.sessions email) token
                  ⟨email, createdAt⟩) }
  | .logout token =>
      match token with
      | none => st
      | some t =>
          if t = "" then st
          else
            match getSession st.sessions t with
            | none => st
            | some _ => { st with sessions := deleteSession st.sessions t }

/-- A sequence of auth requests processed in order. -/
def runAuth (st : ServerState) (ops : List AuthOp) : ServerState :=
  ops.foldl authStep st

/-- Well-formedness of the sessions object: tokens are distinct (JS object
keys) and no two sessions share an email. -/
def SessInv (m : Sessions) : Prop :=
  m.Pairwise (fun a b => a.1 ≠ b.1 ∧ a.2.email ≠ b.2.email)

instance : DecidablePred SessInv := fun m => List.instDecidablePairwise m

/-! ## Frontend route helpers embedding (frontend/src/utils/routes.js)

`parseRoute` and `buildUrl` plus the platform pieces they invoke:
`encodeURIComponent` and `URLSearchParams` value decoding, embedded at the
byte level — a JS string value is its byte sequence (`List Nat`, entries
< 256), and URL text is `List Char`.  `encodeURIComponent` percent-encodes
every byte outside its unreserved set with uppercase hex;
`URLSearchParams` strips one leading question mark, splits on ampersands,
splits each pair at its first equals sign and percent-decodes names and
values, mapping plus signs to spaces. -/

/-- Route names of `ROUTES` (frontend/src/config/constants.js). -/
inductive RouteName where
  | home | favorites | details
  deriving DecidableEq, Repr

/-- The characters `encodeURIComponent` leaves unencoded:
`A-Z a-z 0-9 - _ . ! ~ * ' ( )`. -/
def uriUnreserved (b : Nat) : Bool :=
  (65 ≤ b && b ≤ 90) || (97 ≤ b && b ≤ 122) || (48 ≤ b && b ≤ 57) ||
  b == 45 || b == 95 || b == 46 || b == 33 || b == 126 || b == 42 ||
  b == 39 || b == 40 || b == 41

/-- Uppercase hex digit for a value below 16. -/
def hexDigitChar (n : Nat) : Char :=
  if n < 10 then Char.ofNat (48 + n) else Char.ofNat (55 + n)

/-- `encodeURIComponent` on one byte. -/
def encodeByte (b : Nat) : List Char :=
  if uriUnreserved b then [Char.ofNat b]
  else ['%', hexDigitChar (b / 16 % 16), hexDigitChar (b % 16)]

/-- Platform `encodeURIComponent` on a byte sequence. -/
def encodeURIComponent (bytes : List Nat) : List Char :=
  (bytes.map encodeByte).flatten

/-- Hex digit value, accepting both cases. -/
def hexVal (c : Char) : Option Nat :=
  if 48 ≤ c.toNat ∧ c.toNat ≤ 57 then some (c.toNat - 48)
  else if 65 ≤ c.toNat ∧ c.toNat ≤ 70 then some (c.toNat - 55)
  else if 97 ≤ c.toNat ∧ c.toNat ≤ 102 then some (c.toNat - 87)
  else none

/-- `URLSearchParams` component decoding: percent-escapes to bytes, plus
to space, anything else to its own code point; a malformed escape is kept
literally. -/
def percentDecode : List Char → List Nat
  | [] => []
  | '%' :: c1 :: c2 :: rest2 =>
      match hexVal c1, hexVal c2 with
      | some h1, some h2 => (16 * h1 + h2) :: percentDecode rest2
      | _, _ => 37 :: percentDecode (c1 :: c2 :: rest2)
  | '%' :: rest => 37 :: percentDecode rest
  | '+' :: rest => 32 :: percentDecode rest
  | c :: rest => c.toNat :: percentDecode rest
termination_by l => l.length
decreasing_by all_goals simp [List.length_cons] <;> omega

/-- The byte sequence of an ASCII key string. -/
def strBytes (s : String) : List Nat := s.data.map Char.toNat

/-- `window.location`: pathname and search (search keeps its leading
question mark, as in the browser). -/
structure JsLocation where
  pathname : List Char
  search : List Char
  deriving DecidableEq, Repr

/-- Split a URL string into a location at the first question mark. -/
def locationOfUrl (url : List Char) : JsLocation :=
  ⟨url.takeWhile (fun c => c ≠ '?'), url.dropWhile (fun c => c ≠ '?')⟩

/-- One leading question mark is stripped by `new URLSearchParams(search)`. -/
def stripLeadQ : List Char → List Char
  | '?' :: rest => rest
  | s => s

/-- Split on ampersands. -/
def splitAmp : List Char → List (List Char)
  | [] => [[]]
  | c :: rest =>
      if c = '&' then [] :: splitAmp rest
      else
        match splitAmp rest with
        | [] => [[c]]
        | g :: gs => (c :: g) :: gs

/-- Decode one `name=value` segment (no equals sign means empty value). -/
def parsePair (s : List Char) : List Nat × List Nat :=
  (percentDecode (s.takeWhile (fun c => c ≠ '=')),
   percentDecode ((s.dropWhile (fun c => c ≠ '=')).drop 1))

/-- `new URLSearchParams(search).get(key)`: first matching decoded name's
decoded value; empty segments are skipped. -/
def searchParamsGet (search : List Char) (key : List Nat) : Option (List Nat) :=
  let segs := (splitAmp (stripLeadQ search)).filter (fun s => ¬ s.isEmpty)
  ((segs.map parsePair).find? (fun p => p.1 = key)).map Prod.snd

/-- The params object consumed by `buildUrl`; a JS-falsy (absent or empty)
field is the empty byte sequence. -/
structure RouteParams where
  id : List Nat
  hotel_id : List Nat
  deriving DecidableEq, Repr

/-- Embedding of `parseRoute` (routes.js lines 3-13): route name from the
pathname; `search` is passed through for `URLSearchParams`. -/
def parseRoute (loc : JsLocation) : RouteName :=
  if loc.pathname = "/favorites".data then .favorites
  else if loc.pathname = "/hotel-details".data then .details
  else .home

/-- Embedding of `buildUrl` (routes.js lines 15-25): the favorites URL
carries `hotel_id` when truthy, the details URL carries `id` when truthy,
everything else maps to the root path. -/
def buildUrl (name : RouteName) (params : RouteParams) : List Char :=
  match name with
  | .favorites =>
      if params.hotel_id ≠ [] then
        "/favorites?hotel_id=".data ++ encodeURIComponent params.hotel_id
      else "/favorites".data
  | .details =>
      if params.id ≠ [] then
        "/hotel-details?id=".data ++ encodeURIComponent params.id
      else "/hotel-details".data
  | .home => "/".data

theorem find?_filter_head (l : List NetworkExchange) (p : NetworkExchange → Bool)
    (ex : NetworkExchange) (tl : List NetworkExchange)
    (h : l.filter p = ex :: tl) : l.find? p = some ex := by
  induction l with
  | nil => simp at h
  | cons a l ih =>
      by_cases ha : p a
      · simp [List.filter_cons, ha] at h
        obtain ⟨rfl, -⟩ := h
        simp [List.find?, ha]
      · simp [List.filter_cons, ha] at h
        simp [List.find?, ha, ih h]

theorem filter_eraseP_eq_tail (l : List NetworkExchange) (p : NetworkExchange → Bool)
    (ex : NetworkExchange) (tl : List NetworkExchange)
    (h : l.filter p = ex :: tl) : (l.eraseP p).filter p = tl := by
  induction l with
  | nil => simp at h
  | cons a l ih =>
      by_cases ha : p a
      · simp [List.filter_cons, ha] at h
        simp [List.eraseP_cons, ha, h.2]
      · simp [List.filter_cons, ha] at h
        simp [List.eraseP_cons, ha, List.filter_cons, ih h]

theorem filter_eraseP_ne (l : List NetworkExchange) (p q : NetworkExchange → Bool)
    (hpq : ∀ ex, q ex = true → p ex = false) :
    (l.eraseP p).filter q = l.filter q := by
  induction l with
  | nil => simp
  | cons a l ih =>
      by_cases ha : p a
      · have : q a = false := by
          by_contra hq
          have := hpq a (by simpa using hq)
          simp [this] at ha
        simp [List.eraseP_cons, ha, List.filter_cons, this]
      · simp [List.eraseP_cons, ha, List.filter_cons, ih]

theorem count_eraseP_of_filter_head (l : List NetworkExchange)
    (p : NetworkExchange → Bool) (ex : NetworkExchange) (tl : List NetworkExchange)
    (h : l.filter p = ex :: tl) :
    (l.eraseP p).count ex + 1 = l.count ex := by
  induction l with
  | nil => simp at h
  | cons a l ih =>
      by_cases ha : p a
      · simp [List.filter_cons, ha] at h
        obtain ⟨rfl, -⟩ := h
        simp [List.eraseP_cons, ha, List.count_cons]
      · simp [List.filter_cons, ha] at h
        have hne : ¬ (a = ex) := by
          rintro rfl
          have hmem : a ∈ l.filter p := by
            rw [h]; exact List.mem_cons_self _ _
          have := (List.mem_filter.mp hmem).2
          simp [this] at ha
        have hne2 : ¬ (ex = a) := fun he => hne he.symm
        simp [List.eraseP_cons, ha, List.count_cons, hne2, ih h]

/-- C1. Per-key FIFO without re-serving: when the queue for the live
request's key holds `ex` at its head, the request is served `ex`'s archived
response body; afterwards that key's queue is the tail (the head is popped,
so `ex`'s multiplicity drops by one and it is never re-served), every other
key's queue is untouched, and in particular two identical live requests
against a queue recording bodies `A` then `B` receive `A` then `B`. -/
theorem replay_fifo_per_key (fb : Bool) (live : LiveRequest → String)
    (remaining : List NetworkExchange) (r : LiveRequest)
    (ex : NetworkExchange) (tl : List NetworkExchange)
    (hq : queueFor remaining (requestKey r) = ex :: tl) :
    (serveOne fb live remaining r).1 = .served ex.responseBody ∧
    queueFor (serveOne fb live remaining r).2 (requestKey r) = tl ∧
    (∀ k, k ≠ requestKey r →
      queueFor (serveOne fb live remaining r).2 k = queueFor remaining k) ∧
    ((serveOne fb live remaining r).2.count ex + 1 = remaining.count ex) ∧
    (∀ exB tlB, tl = exB :: tlB →
      replayRun fb live remaining [r, r] =
        [.served ex.responseBody, .served exB.responseBody]) := by
  have hfind := find?_filter_head remaining _ ex tl hq
  have hserve : serveOne fb live remaining r =
      (.served ex.responseBody,
        remaining.eraseP (fun e => exchangeKey e = requestKey r)) := by
    simp [serveOne, hfind]
  refine ⟨by simp [hserve], ?_, ?_, ?_, ?_⟩
  · simpa [hserve, queueFor] using filter_eraseP_eq_tail remaining _ ex tl hq
  · intro k hk
    simp only [hserve, queueFor]
    refine filter_eraseP_ne remaining _ _ ?_
    intro e he
    simp only [decide_eq_true_eq] at he
    rw [decide_eq_false_iff_not, he]
    exact hk
  · simpa [hserve] using count_eraseP_of_filter_head remaining _ ex tl hq
  · intro exB tlB htl
    subst htl
    have h2 := filter_eraseP_eq_tail remaining
      (fun e => decide (exchangeKey e = requestKey r)) ex _ hq
    have hfind2 := find?_filter_head _ _ exB tlB h2
    simp only [replayRun]
    rw [hserve]
    simp [serveOne, hfind2]

/-- C1 witness: a concrete archive with two POST exchanges under one key;
the two identical live requests receive body `A` then body `B`. -/
theorem replay_fifo_per_key_witness :
    (queueFor
        [⟨"POST", "https://api/x", "req", "A"⟩, ⟨"POST", "https://api/x", "req", "B"⟩]
        (requestKey ⟨"POST", "https://api/x", "req"⟩)
      = [⟨"POST", "https://api/x", "req", "A"⟩, ⟨"POST", "https://api/x", "req", "B"⟩]) ∧
    replayRun false (fun _ => "")
        [⟨"POST", "https://api/x", "req", "A"⟩, ⟨"POST", "https://api/x", "req", "B"⟩]
        [⟨"POST", "https://api/x", "req"⟩, ⟨"POST", "https://api/x", "req"⟩]
      = [.served "A", .served "B"] := by
  refine ⟨by decide, ?_⟩
  exact (replay_fifo_per_key false (fun _ => "")
      [⟨"POST", "https://api/x", "req", "A"⟩, ⟨"POST", "https://api/x", "req", "B"⟩]
      ⟨"POST", "https://api/x", "req"⟩
      ⟨"POST", "https://api/x", "req", "A"⟩
      [⟨"POST", "https://api/x", "req", "B"⟩] (by decide)).2.2.2.2
      ⟨"POST", "https://api/x", "req", "B"⟩ [] rfl

/-- C2. Determinism of fallback-disabled replay as a two-run property: two
runs over the same bundle and the same live request sequence serve the same
response sequence, even if the live network (`live1` vs `live2`) changed
between the runs — with fallback disabled the network is never consulted. -/
theorem replay_deterministic (live1 live2 : LiveRequest → String)
    (remaining : List NetworkExchange) (reqs : List LiveRequest) :
    replayRun false live1 remaining reqs = replayRun false live2 remaining reqs := by
  induction reqs generalizing remaining with
  | nil => rfl
  | cons r rs ih =>
      have hstep : serveOne false live1 remaining r = serveOne false live2 remaining r := by
        unfold serveOne
        cases remaining.find? (fun ex => exchangeKey ex = requestKey r) <;> simp
      simp only [replayRun, hstep]
      exact congrArg _ (ih _)

/-- C5. Empty-queue behavior: a live request whose key has an empty queue is
failed explicitly when fallback is disabled — a per-request failure after
which the run continues on the untouched state — and is forwarded to the
live network with a fallback tag when fallback is enabled. -/
theorem replay_empty_queue (live : LiveRequest → String)
    (remaining : List NetworkExchange) (r : LiveRequest)
    (hq : queueFor remaining (requestKey r) = []) :
    serveOne false live remaining r = (.failed, remaining) ∧
    serveOne true live remaining r = (.fallback (live r), remaining) ∧
    (∀ rest, replayRun false live remaining (r :: rest) =
      .failed :: replayRun false live remaining rest) := by
  have hfind : remaining.find? (fun ex => exchangeKey ex = requestKey r) = none := by
    rw [List.find?_eq_none]
    intro ex hex
    simp [queueFor] at hq
    simpa using hq ex hex
  refine ⟨by simp [serveOne, hfind], by simp [serveOne, hfind], ?_⟩
  intro rest
  simp [replayRun, serveOne, hfind]

/-- C5 witness: a GET request with no archived exchange fails in strict mode,
falls back (tagged) when fallback is enabled, and the run continues. -/
theorem replay_empty_queue_witness :
    (queueFor [] (requestKey ⟨"GET", "https://api/missing", ""⟩) = []) ∧
    serveOne false (fun _ => "net") [] ⟨"GET", "https://api/missing", ""⟩
      = (.failed, []) ∧
    serveOne true (fun _ => "net") [] ⟨"GET", "https://api/missing", ""⟩
      = (.fallback "net", []) ∧
    replayRun false (fun _ => "net") []
        [⟨"GET", "https://api/missing", ""⟩, ⟨"GET", "https://api/other", ""⟩]
      = [.failed, .failed] := by
  have h := replay_empty_queue (fun _ => "net") [] ⟨"GET", "https://api/missing", ""⟩
    (by decide)
  refine ⟨by decide, h.1, h.2.1, ?_⟩
  rw [h.2.2 [⟨"GET", "https://api/other", ""⟩]]
  decide

theorem compileAux_some_run (init : List Step) (lastS : Step) (rest : List Step)
    (t : String) (tc0 : ToolCall) (htc0 : tc0.target = t)
    (hall : ∀ s ∈ init ++ [lastS], isTyping s.kind = true ∧ s.target = t) :
    compileAux (some tc0) ((init ++ [lastS]) ++ rest) =
      compileAux (some (typeCall lastS)) rest := by
  induction init generalizing tc0 with
  | nil =>
      have hl := hall lastS (by simp)
      simp [compileAux, hl.1, htc0, hl.2]
  | cons s init ih =>
      have hs := hall s (by simp)
      have hrest : ∀ x ∈ init ++ [lastS], isTyping x.kind = true ∧ x.target = t :=
        fun x hx => hall x (by simp [hx])
      simp only [List.cons_append, compileAux, hs.1, if_pos, htc0, hs.2, typeCall]
      exact ih ⟨"type", t, s.value, s.timestamp⟩ rfl hrest

theorem compileAux_none_run (init : List Step) (lastS : Step) (rest : List Step)
    (t : String)
    (hall : ∀ s ∈ init ++ [lastS], isTyping s.kind = true ∧ s.target = t) :
    compileAux none ((init ++ [lastS]) ++ rest) =
      compileAux (some (typeCall lastS)) rest := by
  cases init with
  | nil =>
      have hl := hall lastS (by simp)
      simp [compileAux, hl.1]
  | cons s init =>
      have hs := hall s (by simp)
      have hrest : ∀ x ∈ init ++ [lastS], isTyping x.kind = true ∧ x.target = t :=
        fun x hx => hall x (by simp [hx])
      simp only [List.cons_append, compileAux, hs.1, if_pos]
      exact compileAux_some_run init lastS rest t (typeCall s) hs.2 hrest

/-- C3. Compression law: a maximal run of consecutive keydown/input Steps on
one target — written `init ++ [lastS]`, followed by `rest` that is empty or
begins with a run-breaking Step (another kind, e.g. click or navigate, or
another target) — compiles to exactly one `type` ToolCall carrying the final
value and the last contributing Step's timestamp, followed by the
compilation of `rest`; and every non-typing Step (click, navigate, scroll,
contextmenu) maps one-to-one to its ToolCall. -/
theorem compile_compression (init : List Step) (lastS : Step) (rest : List Step)
    (t : String)
    (hall : ∀ s ∈ init ++ [lastS], isTyping s.kind = true ∧ s.target = t)
    (hbreak : rest = [] ∨ ∃ s rest2, rest = s :: rest2 ∧
      (isTyping s.kind = false ∨ s.target ≠ t)) :
    compile ((init ++ [lastS]) ++ rest) =
      ⟨"type", t, lastS.value, lastS.timestamp⟩ :: compile rest ∧
    (∀ s rest2, isTyping s.kind = false →
      compile (s :: rest2) = toolCallOfStep s :: compile rest2) := by
  have htarget : lastS.target = t := (hall lastS (by simp)).2
  have hone : ∀ s rest2, isTyping s.kind = false →
      compile (s :: rest2) = toolCallOfStep s :: compile rest2 := by
    intro s rest2 hs
    simp [compile, compileAux, hs]
  refine ⟨?_, hone⟩
  have hrun := compileAux_none_run init lastS rest t hall
  have htc : typeCall lastS = ⟨"type", t, lastS.value, lastS.timestamp⟩ := by
    simp [typeCall, htarget]
  rcases hbreak with rfl | ⟨s, rest2, rfl, hb⟩
  · rw [List.append_nil] at hrun
    simp [compile, hrun, htc, compileAux]
  · rcases hb with hb | hb
    · rw [compile, hrun, htc]
      simp [compileAux, hb, compile]
    · have hs : isTyping s.kind = true ∨ isTyping s.kind = false := by
        cases isTyping s.kind <;> simp
      rcases hs with hs | hs
      · have hneq : ¬ t = s.target := fun h => hb h.symm
        have hrhs : compile (s :: rest2) = compileAux (some (typeCall s)) rest2 := by
          simp [compile, compileAux, hs]
        rw [compile, hrun, htc]
        simp only [compileAux, hs, if_true, ite_true]
        rw [if_neg hneq, hrhs]
      · rw [compile, hrun, htc]
        simp [compileAux, hs, compile]

/-- C3 witness: five consecutive `input` Steps on the same field compile to
exactly one `type` ToolCall bearing the final value `"hello"` and the last
Step's timestamp; and a click Step maps one-to-one. -/
theorem compile_compression_witness :
    compile
        [⟨0, 10, .input, "#q", "h"⟩, ⟨1, 11, .input, "#q", "he"⟩,
         ⟨2, 12, .input, "#q", "hel"⟩, ⟨3, 13, .input, "#q", "hell"⟩,
         ⟨4, 14, .input, "#q", "hello"⟩]
      = [⟨"type", "#q", "hello", 14⟩] ∧
    compile [⟨5, 20, .click, "#go", ""⟩] = [⟨"click", "#go", "", 20⟩] := by
  have h := compile_compression
    [⟨0, 10, .input, "#q", "h"⟩, ⟨1, 11, .input, "#q", "he"⟩,
     ⟨2, 12, .input, "#q", "hel"⟩, ⟨3, 13, .input, "#q", "hell"⟩]
    ⟨4, 14, .input, "#q", "hello"⟩ [] "#q" (by decide) (Or.inl rfl)
  refine ⟨?_, ?_⟩
  · have h1 := h.1
    simpa [compile, compileAux] using h1
  · exact h.2 ⟨5, 20, .click, "#go", ""⟩ [] (by decide)

theorem stepOrdered_pair (l : List Step) : StepOrdered l →
    ∀ s1 ∈ l, ∀ s2 ∈ l, s1.sequence < s2.sequence → s1.timestamp ≤ s2.timestamp := by
  induction l with
  | nil => simp
  | cons a l ih =>
      intro hp s1 h1 s2 h2 hseq
      rw [StepOrdered, List.pairwise_cons] at hp
      rcases List.mem_cons.mp h1 with h1e | h1m
      · rcases List.mem_cons.mp h2 with h2e | h2m
        · rw [h1e, h2e]
        · rw [h1e]
          exact (hp.1 s2 h2m).2
      · rcases List.mem_cons.mp h2 with h2e | h2m
        · have h3 := (hp.1 s1 h1m).1
          rw [h2e] at hseq
          omega
        · exact ih hp.2 s1 h1m s2 h2m hseq

theorem appendStep_ordered (steps : List Step) (e : RecordedEvent)
    (h : StepOrdered steps)
    (hseq : ∀ s ∈ steps, s.sequence < steps.length)
    (hts : ∀ s ∈ steps, s.timestamp ≤ e.timestamp) :
    StepOrdered (appendStep steps e) := by
  rw [StepOrdered, appendStep, List.pairwise_append]
  refine ⟨h, by simp, ?_⟩
  intro a ha b hb
  simp only [List.mem_singleton] at hb
  subst hb
  exact ⟨hseq a ha, hts a ha⟩

theorem recordEvents_ordered (steps : List Step) (events : List RecordedEvent)
    (h : StepOrdered steps)
    (hseq : ∀ s ∈ steps, s.sequence < steps.length)
    (hts : ∀ s ∈ steps, ∀ e ∈ events, s.timestamp ≤ e.timestamp)
    (hmono : events.Pairwise (fun a b => a.timestamp ≤ b.timestamp)) :
    StepOrdered (recordEvents steps events) := by
  induction events generalizing steps with
  | nil => exact h
  | cons e rest ih =>
      rw [List.pairwise_cons] at hmono
      refine ih (appendStep steps e) ?_ ?_ ?_ hmono.2
      · exact appendStep_ordered steps e h hseq
          (fun s hs => hts s hs e (by simp))
      · intro s hs
        rw [appendStep] at hs ⊢
        rcases List.mem_append.mp hs with hs | hs
        · have := hseq s hs
          simp only [List.length_append, List.length_singleton]
          omega
        · simp only [List.mem_singleton] at hs
          subst hs
          simp
      · intro s hs e2 he2
        rcases List.mem_append.mp hs with hs | hs
        · exact hts s hs e2 (by simp [he2])
        · simp only [List.mem_singleton] at hs
          subst hs
          exact hmono.1 e2 he2

/-- C4. Step ordering invariant: recording any wall-clock-monotone event
stream from an empty session yields a step log in which sequence numbers
strictly increase and timestamps are non-decreasing in sequence order —
hence for every pair of Steps, `s1.sequence < s2.sequence` implies
`s1.timestamp ≤ s2.timestamp` — and the invariant is preserved by every
single Step-appending operation. -/
theorem step_ordering_invariant (events : List RecordedEvent)
    (hmono : events.Pairwise (fun a b => a.timestamp ≤ b.timestamp)) :
    StepOrdered (recordEvents [] events) ∧
    (∀ s1 ∈ recordEvents [] events, ∀ s2 ∈ recordEvents [] events,
      s1.sequence < s2.sequence → s1.timestamp ≤ s2.timestamp) ∧
    (∀ steps e, StepOrdered steps →
      (∀ s ∈ steps, s.sequence < steps.length) →
      (∀ s ∈ steps, s.timestamp ≤ e.timestamp) →
      StepOrdered (appendStep steps e)) := by
  have hord : StepOrdered (recordEvents [] events) :=
    recordEvents_ordered [] events (by simp [StepOrdered]) (by simp)
      (by simp) hmono
  exact ⟨hord, stepOrdered_pair _ hord, appendStep_ordered⟩

/-- C4 witness: a concrete monotone event stream; the recorded log is
ordered and the pairwise consequence holds at its first and last Steps. -/
theorem step_ordering_invariant_witness :
    StepOrdered (recordEvents []
      [⟨5, .navigate, "", "https://a"⟩, ⟨5, .click, "#b", ""⟩,
       ⟨9, .input, "#q", "h"⟩]) ∧
    StepOrdered (appendStep [] ⟨3, .click, "#c", ""⟩) := by
  have h := step_ordering_invariant
    [⟨5, .navigate, "", "https://a"⟩, ⟨5, .click, "#b", ""⟩, ⟨9, .input, "#q", "h"⟩]
    (by decide)
  exact ⟨h.1, h.2.2 [] ⟨3, .click, "#c", ""⟩ (by decide) (by simp) (by simp)⟩

theorem applyArchEvent_keeps_id (archive : List ArchivedExchange) (e : ArchEvent)
    (i : Nat) (h : ∃ ex ∈ archive, ex.id = i) :
    ∃ ex ∈ applyArchEvent archive e, ex.id = i := by
  obtain ⟨ex, hmem, hid⟩ := h
  cases e with
  | requestStart j m u b =>
      exact ⟨ex, by simp [applyArchEvent, hmem], hid⟩
  | responseDone j resp =>
      refine ⟨if ex.id = j then { ex with response := some resp } else ex, ?_, ?_⟩
      · exact List.mem_map.mpr ⟨ex, hmem, rfl⟩
      · by_cases hj : ex.id = j
        · rw [if_pos hj]
          simpa using hid
        · rw [if_neg hj]
          exact hid
  | requestFailed j =>
      refine ⟨if ex.id = j then { ex with incomplete := true } else ex, ?_, ?_⟩
      · exact List.mem_map.mpr ⟨ex, hmem, rfl⟩
      · by_cases hj : ex.id = j
        · rw [if_pos hj]
          simpa using hid
        · rw [if_neg hj]
          exact hid

theorem foldl_arch_ids (events : List ArchEvent) :
    ∀ archive i, (i ∈ startedIds events ∨ ∃ ex ∈ archive, ex.id = i) →
      ∃ ex ∈ events.foldl applyArchEvent archive, ex.id = i := by
  induction events with
  | nil =>
      intro archive i h
      rcases h with h | h
      · simp [startedIds] at h
      · exact h
  | cons e rest ih =>
      intro archive i h
      rw [List.foldl_cons]
      refine ih (applyArchEvent archive e) i ?_
      rcases h with h | h
      · simp only [startedIds, List.filterMap_cons] at h
        cases e with
        | requestStart j m u b =>
            simp only [List.mem_cons] at h
            rcases h with rfl | h
            · exact Or.inr ⟨⟨i, m, u, b, none, false⟩, by simp [applyArchEvent], rfl⟩
            · exact Or.inl h
        | responseDone j resp => exact Or.inl h
        | requestFailed j => exact Or.inl h
      · exact Or.inr (applyArchEvent_keeps_id archive e i h)

/-- C6. Archive completeness: after finalize, every archived exchange either
carries a response or is explicitly flagged incomplete, and every request
that was ever started is still present in the finalized archive under its
exchange id — a request that never received a response is never silently
discarded. -/
theorem archive_completeness (events : List ArchEvent) :
    (∀ ex ∈ finalizeArchive (runArchiver events),
        ex.response.isSome = true ∨ ex.incomplete = true) ∧
    (∀ i ∈ startedIds events,
        ∃ ex ∈ finalizeArchive (runArchiver events), ex.id = i) := by
  constructor
  · intro ex hmem
    obtain ⟨ex0, -, rfl⟩ := List.mem_map.mp hmem
    cases hr : ex0.response with
    | none => simp [hr]
    | some r => simp [hr]
  · intro i hi
    obtain ⟨ex, hmem, hid⟩ := foldl_arch_ids events [] i (Or.inl hi)
    cases hr : ex.response with
    | none =>
        refine ⟨{ ex with incomplete := true }, ?_, hid⟩
        refine List.mem_map.mpr ⟨ex, hmem, ?_⟩
        simp [hr]
    | some r =>
        refine ⟨ex, ?_, hid⟩
        refine List.mem_map.mpr ⟨ex, hmem, ?_⟩
        simp [hr]

/-- C8 counterexample: with one stored hotel and the `city` parameter given
as the empty string, the handler skips the filter (JS falsiness) and
returns the hotel, while the claim's reading — lowercased city equal to the
lowercased parameter — returns nothing. -/
theorem getHotels_empty_city_counterexample :
    getHotels [⟨"1", "Grand", "Lima"⟩] none (some "") = [⟨"1", "Grand", "Lima"⟩] ∧
    getHotelsClaimed [⟨"1", "Grand", "Lima"⟩] none (some "") = [] ∧
    getHotels [⟨"1", "Grand", "Lima"⟩] none (some "") ≠
      getHotelsClaimed [⟨"1", "Grand", "Lima"⟩] none (some "") := by
  refine ⟨by decide, by decide, by decide⟩

/-- C8 (amended). Hotel listing semantics: provided no parameter is given
as the empty string (JS truthiness skips the filter for an empty value),
`GET /hotels` returns, in stored order, exactly the hotels passing the
q-substring test (lowercased q a substring of lowercased name or city)
whenever `q` is given and the city-equality test (lowercased) whenever
`city` is given; with neither given it returns the stored list unchanged. -/
theorem getHotels_filter_semantics (hotels : List Hotel) (q city : Option String)
    (hq : q ≠ some "") (hc : city ≠ some "") :
    getHotels hotels q city = getHotelsClaimed hotels q city ∧
    getHotels hotels none none = hotels := by
  refine ⟨?_, by simp [getHotels]⟩
  cases q with
  | none =>
      cases city with
      | none => simp [getHotels, getHotelsClaimed]
      | some cs =>
          have hcs : cs ≠ "" := fun hh => hc (by rw [hh])
          simp [getHotels, getHotelsClaimed, hcs]
  | some qs =>
      have hqs : qs ≠ "" := fun hh => hq (by rw [hh])
      cases city with
      | none => simp [getHotels, getHotelsClaimed, hqs]
      | some cs =>
          have hcs : cs ≠ "" := fun hh => hc (by rw [hh])
          simp only [getHotels, getHotelsClaimed, hqs, hcs, ne_eq,
            not_false_iff, if_true, if_pos, List.filter_filter]
          refine List.filter_congr ?_
          intro h hmem
          rw [Bool.and_comm]

/-- C8 witness: a concrete store and non-empty parameters; the handler
agrees with the claimed filter, and no parameters returns the store. -/
theorem getHotels_filter_semantics_witness :
    getHotels [⟨"1", "Grand Lima", "Lima"⟩, ⟨"2", "Beach", "Cusco"⟩]
        (some "Li") (some "lima") =
      getHotelsClaimed [⟨"1", "Grand Lima", "Lima"⟩, ⟨"2", "Beach", "Cusco"⟩]
        (some "Li") (some "lima") ∧
    getHotels [⟨"1", "Grand Lima", "Lima"⟩, ⟨"2", "Beach", "Cusco"⟩] none none =
      [⟨"1", "Grand Lima", "Lima"⟩, ⟨"2", "Beach", "Cusco"⟩] := by
  exact getHotels_filter_semantics
    [⟨"1", "Grand Lima", "Lima"⟩, ⟨"2", "Beach", "Cusco"⟩]
    (some "Li") (some "lima") (by decide) (by decide)

theorem sessInv_setSession_after_remove (m : Sessions) (email t createdAt : String)
    (h : SessInv m) :
    SessInv (setSession (removeSessionsByEmail m email) t ⟨email, createdAt⟩) := by
  have h2 : SessInv (removeSessionsByEmail m email) :=
    h.sublist (List.filter_sublist m)
  have hmem : ∀ p ∈ removeSessionsByEmail m email, p.2.email ≠ email := by
    intro p hp
    have := List.mem_filter.mp hp
    simpa using this.2
  rw [setSession]
  by_cases hAny : (removeSessionsByEmail m email).any (fun p => p.1 = t)
  · rw [if_pos hAny]
    rw [SessInv, List.pairwise_map]
    refine List.Pairwise.imp_of_mem ?_ h2
    intro a b ha hb hr
    by_cases hat : a.1 = t
    · by_cases hbt : b.1 = t
      · exact absurd (hat.trans hbt.symm) hr.1
      · simp only [hat, if_pos, hbt, if_neg]
        exact ⟨fun hh => hbt hh.symm, fun hh => hmem b hb hh.symm⟩
    · by_cases hbt : b.1 = t
      · simp only [hat, if_neg, hbt, if_pos]
        exact ⟨hat, hmem a ha⟩
      · simp only [hat, hbt, if_neg]
        exact hr
  · rw [if_neg hAny]
    have hkeys : ∀ p ∈ removeSessionsByEmail m email, ¬ p.1 = t := by
      intro p hp hpt
      exact hAny (List.any_eq_true.mpr ⟨p, hp, by simp [hpt]⟩)
    rw [SessInv, List.pairwise_append]
    refine ⟨h2, by simp, ?_⟩
    intro a ha b hb
    simp only [List.mem_singleton] at hb
    subst hb
    exact ⟨hkeys a ha, hmem a ha⟩

theorem sessInv_authStep (st : ServerState) (op : AuthOp)
    (h : SessInv st.sessions) : SessInv (authStep st op).sessions := by
  cases op with
  | register email password id createdAt =>
      simp only [authStep]
      by_cases h1 : email = "" ∨ password = ""
      · rw [if_pos h1]
        exact h
      · rw [if_neg h1]
        by_cases h2 : (st.users.find? (fun u => u.email = email)).isSome
        · rw [if_pos h2]
          exact h
        · rw [if_neg h2]
          exact h.sublist (List.filter_sublist st.sessions)
  | login email password token createdAt =>
      simp only [authStep]
      by_cases h1 : email = "" ∨ password = ""
      · rw [if_pos h1]
        exact h
      · rw [if_neg h1]
        cases st.users.find? (fun u => decide (u.email = email ∧ u.password = password)) with
        | none => exact h
        | some u => exact sessInv_setSession_after_remove st.sessions email token createdAt h
  | logout token =>
      cases token with
      | none => exact h
      | some t =>
          simp only [authStep]
          by_cases h1 : t = ""
          · rw [if_pos h1]
            exact h
          · rw [if_neg h1]
            cases getSession st.sessions t with
            | none => exact h
            | some s => exact h.sublist (List.filter_sublist st.sessions)

theorem sessInv_runAuth (st : ServerState) (ops : List AuthOp)
    (h : SessInv st.sessions) : SessInv (runAuth st ops).sessions := by
  induction ops generalizing st with
  | nil => exact h
  | cons op rest ih =>
      exact ih (authStep st op) (sessInv_authStep st op h)

/-- C9. Session uniqueness: from any well-formed state, any sequence of
register/login/logout requests leaves at most one session per email
(pairwise-distinct session emails); a failed login — missing field or wrong
credentials — leaves the sessions object unchanged; a successful login
first removes every session for that email and then installs exactly the
one fresh token; a successful register removes every session for that
email. -/
theorem session_uniqueness (st : ServerState) (ops : List AuthOp)
    (h : SessInv st.sessions) :
    SessInv (runAuth st ops).sessions ∧
    (runAuth st ops).sessions.Pairwise (fun a b => a.2.email ≠ b.2.email) ∧
    (∀ e p t c, (e = "" ∨ p = "" ∨
        st.users.find? (fun u => u.email = e ∧ u.password = p) = none) →
      (authStep st (.login e p t c)).sessions = st.sessions) ∧
    (∀ e p t c u, e ≠ "" → p ≠ "" →
        st.users.find? (fun u => u.email = e ∧ u.password = p) = some u →
      (authStep st (.login e p t c)).sessions =
        setSession (removeSessionsByEmail st.sessions e) t ⟨e, c⟩) ∧
    (∀ e p i c, e ≠ "" → p ≠ "" →
        st.users.find? (fun u => u.email = e) = none →
      (authStep st (.register e p i c)).sessions =
        removeSessionsByEmail st.sessions e) := by
  have hrun := sessInv_runAuth st ops h
  refine ⟨hrun, hrun.imp (fun hx => hx.2), ?_, ?_, ?_⟩
  · intro e p t c hfail
    simp only [authStep]
    rcases hfail with he | hp | hfind
    · rw [if_pos (Or.inl he)]
    · rw [if_pos (Or.inr hp)]
    · by_cases h1 : e = "" ∨ p = ""
      · rw [if_pos h1]
      · rw [if_neg h1, hfind]
  · intro e p t c u he hp hfind
    simp only [authStep]
    rw [if_neg (by simp [he, hp]), hfind]
  · intro e p i c he hp hfind
    simp only [authStep]
    rw [if_neg (by simp [he, hp]), hfind]
    simp

/-- C9 witness: a concrete state and request sequence — a register for one
email, two successful logins for another — ends with pairwise-distinct
session emails, and the side conjuncts are exercised by the theorem at the
same concrete state. -/
theorem session_uniqueness_witness :
    SessInv (runAuth ⟨[⟨"u1", "a@x", "pw", "t0"⟩], []⟩
      [.register "b@x" "pw2" "u2" "t1",
       .login "a@x" "pw" "tok1" "t2",
       .login "a@x" "pw" "tok2" "t3"]).sessions := by
  exact (session_uniqueness ⟨[⟨"u1", "a@x", "pw", "t0"⟩], []⟩
    [.register "b@x" "pw2" "u2" "t1",
     .login "a@x" "pw" "tok1" "t2",
     .login "a@x" "pw" "tok2" "t3"] (by decide)).1

set_option maxRecDepth 100000 in
set_option maxHeartbeats 1000000 in
theorem char_ofNat_unreserved : ∀ b < 256, uriUnreserved b = true →
    ((Char.ofNat b).toNat = b ∧ ¬ Char.ofNat b = '%' ∧ ¬ Char.ofNat b = '+') := by
  decide

theorem hexVal_hexDigitChar : ∀ n < 16, hexVal (hexDigitChar n) = some n := by
  decide

set_option maxRecDepth 100000 in
set_option maxHeartbeats 1000000 in
theorem encodeByte_no_sep : ∀ b < 256, ∀ c ∈ encodeByte b,
    ¬ c = '?' ∧ ¬ c = '&' ∧ ¬ c = '=' := by
  decide

theorem percentDecode_encodeByte (b : Nat) (hb : b < 256) (rest : List Char) :
    percentDecode (encodeByte b ++ rest) = b :: percentDecode rest := by
  by_cases hu : uriUnreserved b
  · obtain ⟨ht, hp, hplus⟩ := char_ofNat_unreserved b hb hu
    rw [encodeByte, if_pos hu]
    simp [percentDecode, hp, hplus, ht]
  · rw [encodeByte, if_neg hu]
    have h1 := hexVal_hexDigitChar (b / 16 % 16) (Nat.mod_lt _ (by omega))
    have h2 := hexVal_hexDigitChar (b % 16) (Nat.mod_lt _ (by omega))
    simp only [List.cons_append, List.nil_append, percentDecode, h1, h2]
    have hbval : 16 * (b / 16 % 16) + b % 16 = b := by omega
    rw [hbval]

theorem percentDecode_encode_append (bytes : List Nat) (h : ∀ b ∈ bytes, b < 256)
    (rest : List Char) :
    percentDecode (encodeURIComponent bytes ++ rest) = bytes ++ percentDecode rest := by
  induction bytes with
  | nil => simp [encodeURIComponent]
  | cons b bs ih =>
      rw [encodeURIComponent]
      simp only [List.map_cons, List.flatten_cons, List.append_assoc]
      rw [percentDecode_encodeByte b (h b (by simp)) _]
      have hbs := ih (fun x hx => h x (List.mem_cons_of_mem _ hx))
      rw [show ((bs.map encodeByte).flatten : List Char) = encodeURIComponent bs from rfl,
        hbs]
      rfl

theorem percentDecode_encode (bytes : List Nat) (h : ∀ b ∈ bytes, b < 256) :
    percentDecode (encodeURIComponent bytes) = bytes := by
  have := percentDecode_encode_append bytes h []
  simpa [percentDecode] using this

theorem encodeURIComponent_no_sep (bytes : List Nat) (h : ∀ b ∈ bytes, b < 256) :
    ∀ c ∈ encodeURIComponent bytes, ¬ c = '?' ∧ ¬ c = '&' ∧ ¬ c = '=' := by
  intro c hc
  rw [encodeURIComponent] at hc
  obtain ⟨l, hl, hcl⟩ := List.mem_flatten.mp hc
  obtain ⟨b, hb, rfl⟩ := List.mem_map.mp hl
  exact encodeByte_no_sep b (h b hb) c hcl

theorem takeWhile_ne_append (sep : Char) (pre suf : List Char)
    (hpre : ∀ c ∈ pre, ¬ c = sep) :
    (pre ++ sep :: suf).takeWhile (fun c => c ≠ sep) = pre ∧
    (pre ++ sep :: suf).dropWhile (fun c => c ≠ sep) = sep :: suf := by
  induction pre with
  | nil => simp
  | cons c pre ih =>
      have hc := hpre c (by simp)
      have hrec := ih (fun x hx => hpre x (by simp [hx]))
      simp only [ne_eq, decide_not] at hrec
      simp [List.takeWhile_cons, List.dropWhile_cons, hc, hrec.1, hrec.2]

theorem splitAmp_no_amp (l : List Char) (h : ∀ c ∈ l, ¬ c = '&') :
    splitAmp l = [l] := by
  induction l with
  | nil => simp [splitAmp]
  | cons c rest ih =>
      have hc := h c (by simp)
      have hr := ih (fun x hx => h x (by simp [hx]))
      rw [splitAmp, if_neg hc, hr]

theorem locationOf_pre_q (pre suf : List Char) (hpre : ∀ c ∈ pre, ¬ c = '?') :
    locationOfUrl (pre ++ '?' :: suf) = ⟨pre, '?' :: suf⟩ := by
  have h := takeWhile_ne_append '?' pre suf hpre
  rw [locationOfUrl, h.1, h.2]

theorem searchParamsGet_single (keyStr : List Char) (bytes : List Nat)
    (hkey : ∀ c ∈ keyStr, ¬ c = '&' ∧ ¬ c = '=') (hkeyne : keyStr ≠ [])
    (h : ∀ b ∈ bytes, b < 256) :
    searchParamsGet ('?' :: (keyStr ++ '=' :: encodeURIComponent bytes))
      (percentDecode keyStr) = some bytes := by
  have hstrip : stripLeadQ ('?' :: (keyStr ++ '=' :: encodeURIComponent bytes)) =
      keyStr ++ '=' :: encodeURIComponent bytes := by
    simp [stripLeadQ]
  have hnoamp : ∀ c ∈ keyStr ++ '=' :: encodeURIComponent bytes, ¬ c = '&' := by
    intro c hc
    rcases List.mem_append.mp hc with hc | hc
    · exact (hkey c hc).1
    · rcases List.mem_cons.mp hc with rfl | hc
      · decide
      · exact (encodeURIComponent_no_sep bytes h c hc).2.1
  have hsplit := splitAmp_no_amp _ hnoamp
  have hne2 : (keyStr ++ '=' :: encodeURIComponent bytes).isEmpty = false := by
    cases keyStr with
    | nil => exact absurd rfl hkeyne
    | cons k ks => rfl
  have hpair : parsePair (keyStr ++ '=' :: encodeURIComponent bytes) =
      (percentDecode keyStr, bytes) := by
    have hsp := takeWhile_ne_append '=' keyStr (encodeURIComponent bytes)
      (fun c hc => (hkey c hc).2)
    rw [parsePair, hsp.1, hsp.2]
    simp [percentDecode_encode bytes h]
  rw [searchParamsGet, hstrip, hsplit]
  simp [hne2, hpair, List.find?]

/-- C10. Route round-trip: for every non-empty id byte sequence, parsing
the location built by `buildUrl` recovers the route name for all of HOME,
FAVORITES, DETAILS, and the `URLSearchParams` lookup of `id` (for DETAILS)
respectively `hotel_id` (for FAVORITES) returns the original id bytes —
URL decoding inverts `encodeURIComponent`. -/
theorem route_round_trip (idBytes : List Nat) (hne : idBytes ≠ [])
    (hbytes : ∀ b ∈ idBytes, b < 256) :
    (parseRoute (locationOfUrl (buildUrl .details ⟨idBytes, []⟩)) = .details ∧
     searchParamsGet (locationOfUrl (buildUrl .details ⟨idBytes, []⟩)).search
       (strBytes "id") = some idBytes) ∧
    (parseRoute (locationOfUrl (buildUrl .favorites ⟨[], idBytes⟩)) = .favorites ∧
     searchParamsGet (locationOfUrl (buildUrl .favorites ⟨[], idBytes⟩)).search
       (strBytes "hotel_id") = some idBytes) ∧
    parseRoute (locationOfUrl (buildUrl .home ⟨idBytes, idBytes⟩)) = .home := by
  have hkey_id : percentDecode "id".data = strBytes "id" := by
    simp [percentDecode, strBytes]
  have hkey_hid : percentDecode "hotel_id".data = strBytes "hotel_id" := by
    simp [percentDecode, strBytes]
  refine ⟨?_, ?_, ?_⟩
  · have hbuild : buildUrl .details ⟨idBytes, []⟩ =
        "/hotel-details".data ++ '?' :: ("id".data ++ '=' :: encodeURIComponent idBytes) := by
      rw [buildUrl, if_pos hne]
      rfl
    have hloc := locationOf_pre_q "/hotel-details".data
      ("id".data ++ '=' :: encodeURIComponent idBytes) (by decide)
    rw [hbuild, hloc]
    constructor
    · simp [parseRoute]
    · have := searchParamsGet_single "id".data idBytes (by decide) (by decide) hbytes
      rw [hkey_id] at this
      exact this
  · have hbuild : buildUrl .favorites ⟨[], idBytes⟩ =
        "/favorites".data ++ '?' :: ("hotel_id".data ++ '=' :: encodeURIComponent idBytes) := by
      rw [buildUrl, if_pos hne]
      rfl
    have hloc := locationOf_pre_q "/favorites".data
      ("hotel_id".data ++ '=' :: encodeURIComponent idBytes) (by decide)
    rw [hbuild, hloc]
    constructor
    · simp [parseRoute]
    · have := searchParamsGet_single "hotel_id".data idBytes (by decide) (by decide) hbytes
      rw [hkey_hid] at this
      exact this
  · rw [buildUrl]
    decide

/-- C10 witness: a concrete id containing a space, a slash and letters; the
round trip recovers the route names and the id bytes. -/
theorem route_round_trip_witness :
    (parseRoute (locationOfUrl (buildUrl .details ⟨[104, 32, 47, 122], []⟩)) = .details ∧
     searchParamsGet (locationOfUrl (buildUrl .details ⟨[104, 32, 47, 122], []⟩)).search
       (strBytes "id") = some [104, 32, 47, 122]) ∧
    (parseRoute (locationOfUrl (buildUrl .favorites ⟨[], [104, 32, 47, 122]⟩)) = .favorites ∧
     searchParamsGet
       (locationOfUrl (buildUrl .favorites ⟨[], [104, 32, 47, 122]⟩)).search
       (strBytes "hotel_id") = some [104, 32, 47, 122]) ∧
    parseRoute (locationOfUrl (buildUrl .home ⟨[104, 32, 47, 122], [104, 32, 47, 122]⟩))
      = .home := by
  exact route_round_trip [104, 32, 47, 122] (by decide) (by decide)

end WebEnv
